import Mathlib

/-!
Verification development for the `elm` ensemble-learning repository.

The repository ships two example notebooks (`LANDSAT_Example.ipynb` and
`temperature-PDFs-clustering.ipynb`) that exercise the library core
(`fit_ensemble`, `ParetoRanker`, `Pipeline.new_with_params`, `predict_many`).
The library core itself is not part of the source tree, so it is modelled
here from the specification; user-level functions defined in the notebooks
(`_next_name`, `model_selection`, `set_nans`, `toa_rad_or_reflect`) are
embedded from their notebook source.
-/

namespace Elm

/-! ### ParetoRanker (modelled from the spec, section 4.3) -/

/-- Modelled from the spec: multiply each objective by its weight
(+1 maximize, -1 minimize), componentwise. -/
def wmul (weights s : List Int) : List Int :=
  List.zipWith (fun w x => w * x) weights s

/-- Modelled from the spec: standard Pareto dominance on weighted score
vectors. `dominates a b` holds when `a` is not worse than `b` in every
objective and strictly better in at least one. -/
def dominates (a b : List Int) : Bool :=
  (List.zipWith (fun x y => decide (y ≤ x)) a b).all id &&
  (List.zipWith (fun x y => decide (y < x)) a b).any id

/-- Modelled from the spec: a member is in the current nondominated front
when no member of the remaining set dominates it. -/
def undominated (items : List (Nat × List Int)) (a : Nat × List Int) : Bool :=
  !(items.any (fun b => dominates b.2 a.2))

/-- Modelled from the spec: the secondary key used to order a front, the sum
of the weighted objective values (the spec leaves the normalization
unspecified; it is modelled as the identity, which the claims checked here
do not depend on). -/
def sumKey (s : List Int) : Int := s.sum

/-- Insert an element into a list held in descending key order, after any
elements of equal key, so that the fold below is a stable descending sort. -/
def insertDescBy (f : α → Int) (x : α) : List α → List α
  | [] => [x]
  | y :: ys => if f y < f x then x :: y :: ys else y :: insertDescBy f x ys

/-- Stable descending insertion sort by an integer key. -/
def sortDescBy (f : α → Int) (l : List α) : List α :=
  l.foldl (fun acc x => insertDescBy f x acc) []

/-- Modelled from the spec: order one dominance front by the secondary key
(descending), ties broken by original population index (the elements arrive
in index order and the sort is stable). -/
def sortFront (front : List (Nat × List Int)) : List (Nat × List Int) :=
  sortDescBy (fun x => sumKey x.2) front

/-- Modelled from the spec: peel successive dominance fronts from the set of
(index, weighted scores) items, ordering each front with `sortFront`.
The fuel argument equals the number of items at the first call; the
`front.isEmpty` branch is unreachable (a finite nonempty set always has an
undominated element) and only keeps the function total. -/
def peelFronts : Nat → List (Nat × List Int) → List (List (Nat × List Int))
  | 0, _ => []
  | _ + 1, [] => []
  | fuel + 1, items =>
    let front := items.filter (undominated items)
    let rest := items.filter (fun a => !(undominated items a))
    if front.isEmpty then [items]
    else sortFront front :: peelFronts fuel rest

/-- Modelled from the spec: successive dominance fronts of a score matrix
under the given objective weights, as lists of original indices. -/
def paretoFronts (scores : List (List Int)) (weights : List Int) : List (List Nat) :=
  let items := (scores.map (wmul weights)).enum
  (peelFronts items.length items).map (fun f => f.map (fun x => x.1))

/-- Modelled from the spec: `ParetoRanker.rank` concatenates the dominance
fronts, best front first, producing the best-to-worst index ordering. -/
def rank (scores : List (List Int)) (weights : List Int) : List Nat :=
  (paretoFronts scores weights).flatten

/-! ### EnsembleEngine (modelled from the spec, section 4.1)

The generation loop is modelled over opaque types: `A` for sampler argument
tuples, `S` for samples, `M` for population members (tagged pipelines) and
`K` for the caller-supplied model-selection keyword arguments. -/

/-- Modelled from the spec: the inputs of `fit_ensemble` when a sampler and
an `args_list` are given with `models_share_sample=True`. Fit jobs that
raise are modelled as `fitJob` returning `none`; a failing sampler returns
`Except.error` and is fatal. -/
structure EnsembleConfig (A S M K : Type) where
  sampler : A → Except String S
  args_list : List A
  ngen : Nat
  fitJob : M → S → Option M
  scorer : M → S → List Int
  weights : List Int
  model_selection : List M → List Nat → Nat → Nat → K → List M
  model_selection_kwargs : K

/-- Record of what one generation of `fit_ensemble` did: the single sampler
invocation, the population it fitted, the members whose fit job succeeded,
the recorded failures, the scores and ranking over the successful members,
the arguments passed to `model_selection` and its returned population. -/
structure GenRecord (A S M K : Type) where
  gen : Nat
  samplerArgs : A
  sample : S
  popBefore : List M
  fitted : List M
  failures : List Nat
  scores : List (List Int)
  bestIdxes : List Nat
  mselGen : Nat
  mselNgen : Nat
  mselKwargs : K
  popAfter : List M
deriving Repr, DecidableEq

/-- Modelled from the spec: one generation `g` of `fit_ensemble`: acquire
the sample via `sampler(args_list[g mod len(args_list)])` (cyclic reuse),
submit a fit job for every population member, exclude members whose fit job
failed, fail fatally when this empties the population, score and rank the
survivors via the ParetoRanker, then call
`model_selection(fitted, best_idxes, generation, ngen, kwargs)` whose result
becomes the next generation's population verbatim. -/
def runGen (cfg : EnsembleConfig A S M K) (pop : List M) (g : Nat) :
    Except String (GenRecord A S M K) :=
  match cfg.args_list.get? (g % cfg.args_list.length) with
  | none => .error "empty args_list"
  | some args =>
    match cfg.sampler args with
    | .error e => .error e
    | .ok sample =>
      let fitted := pop.filterMap (fun m => cfg.fitJob m sample)
      let failures := ((pop.enum.filter
        (fun p => (cfg.fitJob p.2 sample).isNone)).map (fun p => p.1))
      if fitted.isEmpty then .error "all population members failed"
      else
        let scores := fitted.map (fun m => cfg.scorer m sample)
        let best := rank scores cfg.weights
        let next := cfg.model_selection fitted best g cfg.ngen
          cfg.model_selection_kwargs
        .ok { gen := g, samplerArgs := args, sample := sample,
              popBefore := pop, fitted := fitted, failures := failures,
              scores := scores, bestIdxes := best, mselGen := g,
              mselNgen := cfg.ngen, mselKwargs := cfg.model_selection_kwargs,
              popAfter := next }

/-- Modelled from the spec: run generations `g0, g0+1, ...` for `fuel` more
generations, threading each generation's returned population into the next
and collecting one record per generation. -/
def runGens (cfg : EnsembleConfig A S M K) :
    List M → Nat → Nat → Except String (List (GenRecord A S M K) × List M)
  | pop, _, 0 => .ok ([], pop)
  | pop, g, fuel + 1 =>
    match runGen cfg pop g with
    | .error e => .error e
    | .ok r =>
      match runGens cfg r.popAfter (g + 1) fuel with
      | .error e => .error e
      | .ok (rs, fin) => .ok (r :: rs, fin)

/-- Modelled from the spec: `fit_ensemble` runs generations `0 .. ngen-1`
starting from the initial population and returns the per-generation trace
together with the final ensemble (the last generation's returned
population). -/
def fit_ensemble (cfg : EnsembleConfig A S M K) (initPop : List M) :
    Except String (List (GenRecord A S M K) × List M) :=
  runGens cfg initPop 0 cfg.ngen

/-- Inversion of a successful generation: every field of the record is
determined by the inputs. -/
theorem runGen_ok_inv {cfg : EnsembleConfig A S M K} {pop : List M} {g : Nat}
    {r : GenRecord A S M K} (h : runGen cfg pop g = .ok r) :
    cfg.args_list.get? (g % cfg.args_list.length) = some r.samplerArgs ∧
    cfg.sampler r.samplerArgs = .ok r.sample ∧
    r.gen = g ∧ r.popBefore = pop ∧
    r.fitted = pop.filterMap (fun m => cfg.fitJob m r.sample) ∧
    r.failures = (pop.enum.filter
      (fun p => (cfg.fitJob p.2 r.sample).isNone)).map (fun p => p.1) ∧
    r.fitted ≠ [] ∧
    r.scores = r.fitted.map (fun m => cfg.scorer m r.sample) ∧
    r.bestIdxes = rank r.scores cfg.weights ∧
    r.mselGen = g ∧ r.mselNgen = cfg.ngen ∧
    r.mselKwargs = cfg.model_selection_kwargs ∧
    r.popAfter = cfg.model_selection r.fitted r.bestIdxes g cfg.ngen
      cfg.model_selection_kwargs := by
  unfold runGen at h
  split at h
  · exact absurd h (by simp)
  rename_i args harg
  split at h
  · exact absurd h (by simp)
  rename_i sample hs
  simp only at h
  split at h
  · exact absurd h (by simp)
  rename_i hne
  injection h with h
  subst h
  simp only [List.isEmpty_iff] at hne
  exact ⟨harg, hs, rfl, rfl, rfl, rfl, hne, rfl, rfl, rfl, rfl, rfl, rfl⟩

/-- Inversion of a successful generation loop: the trace has one record per
generation, every record is the successful output of `runGen` on its own
`popBefore`, generation `g` fits the population returned by generation
`g-1`, and the final ensemble is the last generation's returned
population. -/
theorem runGens_ok_spec (cfg : EnsembleConfig A S M K) :
    ∀ (fuel : Nat) (pop : List M) (g0 : Nat)
      (trace : List (GenRecord A S M K)) (fin : List M),
    runGens cfg pop g0 fuel = .ok (trace, fin) →
    trace.length = fuel ∧
    (∀ i (h : i < trace.length),
      runGen cfg ((trace.get ⟨i, h⟩).popBefore) (g0 + i) =
        .ok (trace.get ⟨i, h⟩)) ∧
    (∀ h0 : 0 < trace.length, (trace.get ⟨0, h0⟩).popBefore = pop) ∧
    (∀ i (h : i + 1 < trace.length),
      (trace.get ⟨i + 1, h⟩).popBefore =
        (trace.get ⟨i, Nat.lt_of_succ_lt h⟩).popAfter) ∧
    fin = (trace.map (fun r => r.popAfter)).getLastD pop := by
  intro fuel
  induction fuel with
  | zero =>
    intro pop g0 trace fin h
    simp only [runGens] at h
    injection h with h
    injection h with h1 h2
    subst h1; subst h2
    refine ⟨rfl, ?_, ?_, ?_, rfl⟩
    · intro i hi; exact absurd hi (by simp)
    · intro h0; exact absurd h0 (by simp)
    · intro i hi; exact absurd hi (by simp)
  | succ fuel ih =>
    intro pop g0 trace fin h
    simp only [runGens] at h
    split at h
    · exact absurd h (by simp)
    rename_i r hr
    split at h
    · exact absurd h (by simp)
    rename_i rs fin' hrec
    injection h with h
    injection h with h1 h2
    subst h1; subst h2
    obtain ⟨ihlen, ihrun, ihhead, ihchain, ihfin⟩ :=
      ih r.popAfter (g0 + 1) rs fin' hrec
    have hinv := runGen_ok_inv hr
    refine ⟨by simp [ihlen], ?_, ?_, ?_, ?_⟩
    · intro i hi
      match i with
      | 0 =>
        simpa [List.get, hinv.2.2.2.1] using hr
      | Nat.succ j =>
        have hj : j < rs.length := by
          simpa using Nat.lt_of_succ_lt_succ hi
        have := ihrun j hj
        simpa [List.get, Nat.add_assoc, Nat.add_comm 1 j] using this
    · intro h0
      simpa [List.get] using hinv.2.2.2.1
    · intro i hi
      match i with
      | 0 =>
        have h0 : 0 < rs.length := by
          simpa using Nat.lt_of_succ_lt_succ hi
        simpa [List.get] using ihhead h0
      | Nat.succ j =>
        have hj : j + 1 < rs.length := by
          simpa using Nat.lt_of_succ_lt_succ hi
        simpa [List.get] using ihchain j hj
    · rw [List.map_cons, List.getLastD_cons]
      exact ihfin

/-- C1: in every successful `fit_ensemble` run with a sampler and an
`args_list`, the sampler is invoked exactly `ngen` times, once per
generation `g` in `[0, ngen)`, each time with the argument tuple
`args_list[g mod len(args_list)]`, so a short `args_list` is reused
cyclically. -/
theorem fit_ensemble_sampler_invocations
    (cfg : EnsembleConfig A S M K) (initPop : List M)
    (trace : List (GenRecord A S M K)) (fin : List M)
    (h : fit_ensemble cfg initPop = .ok (trace, fin)) :
    trace.length = cfg.ngen ∧
    ∀ g (hg : g < trace.length),
      (trace.get ⟨g, hg⟩).gen = g ∧
      cfg.args_list.get? (g % cfg.args_list.length) =
        some ((trace.get ⟨g, hg⟩).samplerArgs) ∧
      cfg.sampler ((trace.get ⟨g, hg⟩).samplerArgs) =
        .ok ((trace.get ⟨g, hg⟩).sample) := by
  obtain ⟨hlen, hrun, _, _, _⟩ :=
    runGens_ok_spec cfg cfg.ngen initPop 0 trace fin h
  refine ⟨hlen, ?_⟩
  intro g hg
  have hinv := runGen_ok_inv (hrun g hg)
  have hgen : (trace.get ⟨g, hg⟩).gen = g := by
    simpa using hinv.2.2.1
  refine ⟨hgen, ?_, hinv.2.1⟩
  simpa [Nat.zero_add] using hinv.1

/-- C4: in every successful `fit_ensemble` run, `model_selection` is
invoked exactly once per generation `g`, with the generation's
(successful) population and its ranked `best_idxes`, with keyword
arguments that always include `generation = g` and `ngen` together with
the caller-supplied `model_selection_kwargs`, and its return value becomes
the next generation's population verbatim. -/
theorem fit_ensemble_model_selection_contract
    (cfg : EnsembleConfig A S M K) (initPop : List M)
    (trace : List (GenRecord A S M K)) (fin : List M)
    (h : fit_ensemble cfg initPop = .ok (trace, fin)) :
    trace.length = cfg.ngen ∧
    (∀ g (hg : g < trace.length),
      (trace.get ⟨g, hg⟩).mselGen = g ∧
      (trace.get ⟨g, hg⟩).mselNgen = cfg.ngen ∧
      (trace.get ⟨g, hg⟩).mselKwargs = cfg.model_selection_kwargs ∧
      (trace.get ⟨g, hg⟩).popAfter =
        cfg.model_selection (trace.get ⟨g, hg⟩).fitted
          (trace.get ⟨g, hg⟩).bestIdxes g cfg.ngen
          cfg.model_selection_kwargs) ∧
    (∀ g (hg : g + 1 < trace.length),
      (trace.get ⟨g + 1, hg⟩).popBefore =
        (trace.get ⟨g, Nat.lt_of_succ_lt hg⟩).popAfter) ∧
    fin = (trace.map (fun r => r.popAfter)).getLastD initPop := by
  obtain ⟨hlen, hrun, _, hchain, hfin⟩ :=
    runGens_ok_spec cfg cfg.ngen initPop 0 trace fin h
  refine ⟨hlen, ?_, hchain, hfin⟩
  intro g hg
  have hinv := runGen_ok_inv (hrun g hg)
  refine ⟨by simpa using hinv.2.2.2.2.2.2.2.2.2.1,
    hinv.2.2.2.2.2.2.2.2.2.2.1,
    hinv.2.2.2.2.2.2.2.2.2.2.2.1, ?_⟩
  simpa [Nat.zero_add] using hinv.2.2.2.2.2.2.2.2.2.2.2.2

/-- C8: in every successful `fit_ensemble` run, each generation fits the
whole population it started with (the membership of a generation is fixed
within the generation), the first generation starts from the initial
population, and the only place the population (hence its size) changes is
the value returned by `model_selection` at the generation boundary, which
is then the population used for the whole next generation. -/
theorem fit_ensemble_population_stability
    (cfg : EnsembleConfig A S M K) (initPop : List M)
    (trace : List (GenRecord A S M K)) (fin : List M)
    (h : fit_ensemble cfg initPop = .ok (trace, fin)) :
    (∀ g (hg : g < trace.length),
      (trace.get ⟨g, hg⟩).fitted =
        (trace.get ⟨g, hg⟩).popBefore.filterMap
          (fun m => cfg.fitJob m (trace.get ⟨g, hg⟩).sample) ∧
      (trace.get ⟨g, hg⟩).popAfter =
        cfg.model_selection (trace.get ⟨g, hg⟩).fitted
          (trace.get ⟨g, hg⟩).bestIdxes g cfg.ngen
          cfg.model_selection_kwargs) ∧
    (∀ h0 : 0 < trace.length, (trace.get ⟨0, h0⟩).popBefore = initPop) ∧
    (∀ g (hg : g + 1 < trace.length),
      (trace.get ⟨g + 1, hg⟩).popBefore =
        (trace.get ⟨g, Nat.lt_of_succ_lt hg⟩).popAfter ∧
      ((trace.get ⟨g + 1, hg⟩).popBefore).length =
        ((trace.get ⟨g, Nat.lt_of_succ_lt hg⟩).popAfter).length) := by
  obtain ⟨hlen, hrun, hhead, hchain, hfin⟩ :=
    runGens_ok_spec cfg cfg.ngen initPop 0 trace fin h
  refine ⟨?_, hhead, ?_⟩
  · intro g hg
    have hinv := runGen_ok_inv (hrun g hg)
    constructor
    · rw [hinv.2.2.2.2.1, hinv.2.2.2.1]
    · simpa [Nat.zero_add] using hinv.2.2.2.2.2.2.2.2.2.2.2.2
  · intro g hg
    exact ⟨hchain g hg, by rw [hchain g hg]⟩

/-- Members whose fit job succeeds and members whose fit job fails
partition the population. -/
theorem length_filterMap_add_isNone (f : α → Option β) (l : List α) :
    (l.filterMap f).length +
      (l.filter (fun a => (f a).isNone)).length = l.length := by
  induction l with
  | nil => rfl
  | cons a l ih =>
    cases hf : f a <;> simp [List.filterMap_cons, List.filter_cons, hf] <;>
      omega

/-- A generation whose surviving members form a nonempty list completes
successfully. -/
theorem runGen_isOk_of_survivor
    (cfg : EnsembleConfig A S M K) (pop : List M) (g : Nat) (a : A) (s : S)
    (hargs : cfg.args_list.get? (g % cfg.args_list.length) = some a)
    (hs : cfg.sampler a = .ok s)
    (hne : pop.filterMap (fun m => cfg.fitJob m s) ≠ []) :
    (runGen cfg pop g).isOk = true := by
  simp only [runGen, hargs, hs]
  simp [List.isEmpty_iff, hne]
  rfl

/-- C2: when exactly one population member's fit job raises in a
generation, that member is excluded from the generation's scoring and
ranking while the generation completes with the remaining members; a
completed generation hands only its returned population to the following
generations, so no error propagates; and the generation itself fails
fatally exactly when every member's fit job raises. -/
theorem member_fit_failure_isolation
    (cfg : EnsembleConfig A S M K) (pop : List M) (g : Nat) (a : A) (s : S)
    (hargs : cfg.args_list.get? (g % cfg.args_list.length) = some a)
    (hs : cfg.sampler a = .ok s) :
    ((pop.filter (fun m => (cfg.fitJob m s).isNone)).length = 1 →
      2 ≤ pop.length →
      (runGen cfg pop g).isOk = true ∧
      ∀ r, runGen cfg pop g = .ok r →
        r.fitted = pop.filterMap (fun m => cfg.fitJob m s) ∧
        r.fitted.length + 1 = pop.length ∧
        r.scores = r.fitted.map (fun m => cfg.scorer m s) ∧
        r.bestIdxes = rank r.scores cfg.weights) ∧
    (∀ (r : GenRecord A S M K) (fuel : Nat), runGen cfg pop g = .ok r →
      (runGens cfg pop g (fuel + 1)).isOk =
        (runGens cfg r.popAfter (g + 1) fuel).isOk) ∧
    ((∀ m ∈ pop, cfg.fitJob m s = none) →
      runGen cfg pop g = .error "all population members failed") := by
  have hsample : ∀ r : GenRecord A S M K, runGen cfg pop g = .ok r →
      r.sample = s ∧ r.samplerArgs = a := by
    intro r hr
    have hinv := runGen_ok_inv hr
    have ha : a = r.samplerArgs := by
      have := hinv.1.symm.trans hargs
      exact (Option.some_inj.mp this).symm
    have : cfg.sampler a = .ok r.sample := ha ▸ hinv.2.1
    have := hs.symm.trans this
    exact ⟨(Except.ok.inj this).symm, ha.symm⟩
  refine ⟨?_, ?_, ?_⟩
  · intro hone _htwo
    have hlen := length_filterMap_add_isNone (fun m => cfg.fitJob m s) pop
    have hfmlen : (pop.filterMap (fun m => cfg.fitJob m s)).length + 1 =
        pop.length := by omega
    have hne : pop.filterMap (fun m => cfg.fitJob m s) ≠ [] := by
      intro hnil
      rw [hnil] at hfmlen
      simp at hfmlen
      omega
    refine ⟨runGen_isOk_of_survivor cfg pop g a s hargs hs hne, ?_⟩
    intro r hr
    have hinv := runGen_ok_inv hr
    obtain ⟨hrs, _⟩ := hsample r hr
    have hfit : r.fitted = pop.filterMap (fun m => cfg.fitJob m s) := by
      rw [hinv.2.2.2.2.1, hrs]
    refine ⟨hfit, by rw [hfit]; exact hfmlen, ?_, hinv.2.2.2.2.2.2.2.2.1⟩
    rw [hinv.2.2.2.2.2.2.2.1, hrs]
  · intro r fuel hr
    simp only [runGens, hr]
    rcases hrec : runGens cfg r.popAfter (g + 1) fuel with e | p
    · rfl
    · rcases p with ⟨rs, fin⟩
      rfl
  · intro hall
    have hnil : pop.filterMap (fun m => cfg.fitJob m s) = [] := by
      rw [List.filterMap_eq_nil_iff]
      exact hall
    simp only [runGen, hargs, hs, hnil]
    simp

/-! ### predict_many (modelled from the spec, section 4.5) -/

/-- Modelled from the spec: `predict_many` submits one predict job per
(member, sample) pair of the cross product of the ensemble and the sample
sequence, in submission order. A failing pair (modelled as `predict`
returning `none`) does not abort the call: its output is omitted from the
result list and the pair's (member index, sample index) is recorded in the
returned failure report. The optional `serialize` and `to_cube`
post-processing hooks of the spec are identity here; they do not affect
which pairs appear. -/
def predict_many (predict : M → S → Option P)
    (ensemble : List M) (samples : List S) :
    List P × List (Nat × Nat) :=
  let jobs := ensemble.enum.flatMap
    (fun im => samples.enum.map (fun js => (im, js)))
  (jobs.filterMap (fun j => predict j.1.2 j.2.2),
   (jobs.filter (fun j => (predict j.1.2 j.2.2).isNone)).map
     (fun j => (j.1.1, j.2.1)))

/-- The submission order enumerates the full cross product. -/
theorem crossJobs_length (l1 : List α) (l2 : List β) :
    (l1.flatMap (fun a => l2.map (fun b => (a, b)))).length =
      l1.length * l2.length := by
  induction l1 with
  | nil => simp
  | cons a l1 ih =>
    simp only [List.flatMap_cons, List.length_append, List.length_map, ih,
      List.length_cons]
    ring

/-- Successful jobs are exactly the jobs whose predictor returns a value. -/
theorem length_filterMap_eq_length_filter_isSome (f : α → Option β)
    (l : List α) :
    (l.filterMap f).length =
      (l.filter (fun a => (f a).isSome)).length := by
  induction l with
  | nil => rfl
  | cons a l ih =>
    cases hf : f a <;> simp [List.filterMap_cons, List.filter_cons, hf, ih]

/-- Submitting one job per member over a singleton sample list enumerates
the members. -/
theorem flatMap_singleton_pair (l : List α) (f : α → β) :
    l.flatMap (fun a => [f a]) = l.map f := by
  induction l with
  | nil => rfl
  | cons a l ih => simp [List.flatMap_cons, ih]

/-- C7: the result list of `predict_many` has one entry per successful
(member, sample) pair: a failing pair does not abort the call, it is only
omitted from the results and counted in the failure report, and when every
member succeeds on a single sample the result list has exactly one entry
per ensemble member. -/
theorem predict_many_partial_failure (predict : M → S → Option P)
    (ensemble : List M) (samples : List S) :
    ((predict_many predict ensemble samples).1.length =
      ((ensemble.enum.flatMap
          (fun im => samples.enum.map (fun js => (im, js)))).filter
        (fun j => (predict j.1.2 j.2.2).isSome)).length) ∧
    ((predict_many predict ensemble samples).1.length +
      (predict_many predict ensemble samples).2.length =
        ensemble.length * samples.length) ∧
    (∀ s : S, samples = [s] →
      (∀ m ∈ ensemble, (predict m s).isSome = true) →
      (predict_many predict ensemble samples).1.length = ensemble.length) := by
  refine ⟨?_, ?_, ?_⟩
  · exact length_filterMap_eq_length_filter_isSome _ _
  · simp only [predict_many, List.length_map]
    rw [length_filterMap_add_isNone]
    rw [crossJobs_length]
    simp
  · intro s hs hall
    subst hs
    simp only [predict_many]
    have hjobs : ensemble.enum.flatMap
        (fun im => ([s] : List S).enum.map (fun js => (im, js))) =
        ensemble.enum.map (fun im => (im, (0, s))) := by
      simp only [List.enum_cons, List.enumFrom_nil, List.map_cons,
        List.map_nil]
      exact flatMap_singleton_pair _ _
    rw [hjobs]
    rw [List.filterMap_map]
    have : (ensemble.enum.filterMap
        (fun im => predict im.2 s)).length =
        ensemble.enum.length := by
      rw [length_filterMap_eq_length_filter_isSome]
      rw [List.filter_length_eq_length.mpr]
      intro x hx
      rcases x with ⟨i, m⟩
      have := List.mem_enumFrom hx
      rcases this with ⟨_, hi, hm⟩
      exact hall _ (hm ▸ List.getElem_mem _)
    simpa using this

/-! ### Pipeline cloning (modelled from the spec, sections 3 and 4.4) -/

/-- Modelled from the spec: a Pipeline is an ordered sequence of named
steps, each with a flat hyperparameter mapping, plus top-level options and
an opaque fitted state (`none` when unfitted). It is a pure value, so a
call can never mutate the pipeline it is called on. -/
structure Pipeline where
  steps : List (String × List (String × Int))
  options : List (String × Int)
  fitted : Option (List Int)
deriving DecidableEq, Repr

/-- Modelled from the spec: the flattened hyperparameter namespace, one
entry per step parameter under the key `stepname__param`. -/
def flatParams (p : Pipeline) : List (String × Int) :=
  p.steps.flatMap
    (fun sp => sp.2.map (fun pv => (sp.1 ++ "__" ++ pv.1, pv.2)))

/-- Modelled from the spec: `get_params` returns the flattened
`stepname__param` mapping for every step plus the top-level options. -/
def get_params (p : Pipeline) : List (String × Int) :=
  flatParams p ++ p.options

/-- Modelled from the spec: `new_with_params` validates that every override
key resolves to an existing `stepname__param` (unknown keys are a fatal
configuration error) and returns a structurally identical clone with the
overridden parameters and UNFITTED state; the fitted state is never
copied. -/
def new_with_params (p : Pipeline) (overrides : List (String × Int)) :
    Except String Pipeline :=
  if overrides.all
      (fun kv => (flatParams p).any (fun pv => pv.1 == kv.1)) then
    .ok { steps := p.steps.map (fun sp => (sp.1, sp.2.map (fun pv =>
            (pv.1, ((overrides.lookup (sp.1 ++ "__" ++ pv.1)).getD
              pv.2))))),
          options := p.options, fitted := none }
  else .error "invalid parameter override key"

/-- The flattened parameters of the clone are those of the original with
overridden values substituted in place, key by key. -/
theorem flatSteps_override (steps : List (String × List (String × Int)))
    (ov : List (String × Int)) :
    (steps.map (fun sp => (sp.1, sp.2.map (fun pv =>
        (pv.1, ((ov.lookup (sp.1 ++ "__" ++ pv.1)).getD pv.2)))))).flatMap
      (fun sp => sp.2.map (fun pv => (sp.1 ++ "__" ++ pv.1, pv.2))) =
    (steps.flatMap
      (fun sp => sp.2.map (fun pv => (sp.1 ++ "__" ++ pv.1, pv.2)))).map
        (fun kv => (kv.1, (ov.lookup kv.1).getD kv.2)) := by
  induction steps with
  | nil => rfl
  | cons sp steps ih =>
    simp only [List.map_cons, List.flatMap_cons, List.map_append, ih,
      List.map_map]
    congr 1

/-- Looking up a non-overridden key in the substituted mapping gives the
original value. -/
theorem lookup_map_override (ov l : List (String × Int)) (k : String)
    (hk : ov.lookup k = none) :
    (l.map (fun kv => (kv.1, (ov.lookup kv.1).getD kv.2))).lookup k =
      l.lookup k := by
  induction l with
  | nil => rfl
  | cons a l ih =>
    rcases a with ⟨ak, av⟩
    simp only [List.map_cons, List.lookup]
    cases hak : (k == ak) with
    | true =>
      have : k = ak := by simpa using hak
      subst this
      simp only [hak]
      rw [hk]
      rfl
    | false =>
      simp only [hak]
      exact ih

/-- C3: a successful `new_with_params` call returns a structurally
identical clone (same step names, same parameter keys per step, same
options) whose fitted state is absent regardless of the original's fitted
state, and whose parameters agree with the original on every
non-overridden key; the original pipeline, being a pure value, is left
unchanged by the call. -/
theorem new_with_params_clone (p q : Pipeline) (ov : List (String × Int))
    (h : new_with_params p ov = .ok q) :
    q.fitted = none ∧
    q.steps.map (fun sp => sp.1) = p.steps.map (fun sp => sp.1) ∧
    q.steps.map (fun sp => sp.2.map (fun pv => pv.1)) =
      p.steps.map (fun sp => sp.2.map (fun pv => pv.1)) ∧
    q.options = p.options ∧
    (∀ k, ov.lookup k = none →
      (get_params q).lookup k = (get_params p).lookup k) := by
  unfold new_with_params at h
  split at h
  · injection h with h
    subst h
    refine ⟨rfl, by simp, by simp [List.map_map], rfl, ?_⟩
    intro k hk
    simp only [get_params, List.lookup_append]
    have hfq : flatParams
        { steps := p.steps.map (fun sp => (sp.1, sp.2.map (fun pv =>
            (pv.1, ((ov.lookup (sp.1 ++ "__" ++ pv.1)).getD pv.2))))),
          options := p.options, fitted := none } =
        (flatParams p).map (fun kv => (kv.1, (ov.lookup kv.1).getD kv.2)) :=
      flatSteps_override p.steps ov
    rw [hfq, lookup_map_override ov (flatParams p) k hk]
  · exact absurd h (by simp)

/-! ### Tag generation, embedded from temperature-PDFs-clustering.ipynb -/

/-- Decimal digit characters of a natural number, most significant first,
as Python string formatting renders the counter value. -/
def decChars (n : Nat) : List Char :=
  ((Nat.digits 10 n).reverse).map Nat.digitChar

/-- Decimal rendering of the counter value. -/
def decStr (n : Nat) : String := String.mk (decChars n)

/-- Embedded from the notebook: `_next_name` increments the global counter
`_num` and returns the tag `new_model_` followed by the new counter value.
The global counter is made explicit: the function maps the current counter
to the updated counter together with the returned tag. -/
def next_name (num : Nat) : Nat × String :=
  (num + 1, "new_model_" ++ decStr (num + 1))

/-- Distinct decimal digits render to distinct characters. -/
theorem digitChar_inj_lt :
    ∀ a, a < 10 → ∀ b, b < 10 → Nat.digitChar a = Nat.digitChar b →
      a = b := by
  decide

/-- Digit lists below the base render injectively to characters. -/
theorem map_digitChar_inj : ∀ l1 l2 : List Nat,
    (∀ d ∈ l1, d < 10) → (∀ d ∈ l2, d < 10) →
    l1.map Nat.digitChar = l2.map Nat.digitChar → l1 = l2 := by
  intro l1
  induction l1 with
  | nil =>
    intro l2 _ _ h
    cases l2 with
    | nil => rfl
    | cons b l2 => exact absurd h (by simp)
  | cons a l1 ih =>
    intro l2 h1 h2 h
    cases l2 with
    | nil => exact absurd h (by simp)
    | cons b l2 =>
      simp only [List.map_cons, List.cons.injEq] at h
      have hab := digitChar_inj_lt a (h1 a (by simp)) b (h2 b (by simp)) h.1
      subst hab
      rw [ih l2 (fun d hd => h1 d (by simp [hd]))
        (fun d hd => h2 d (by simp [hd])) h.2]

/-- Decimal renderings of distinct numbers differ. -/
theorem decChars_inj (m n : Nat) (h : decChars m = decChars n) : m = n := by
  unfold decChars at h
  have hdm : ∀ d ∈ (Nat.digits 10 m).reverse, d < 10 := fun d hd =>
    Nat.digits_lt_base (by norm_num) (List.mem_reverse.mp hd)
  have hdn : ∀ d ∈ (Nat.digits 10 n).reverse, d < 10 := fun d hd =>
    Nat.digits_lt_base (by norm_num) (List.mem_reverse.mp hd)
  have hrev := map_digitChar_inj _ _ hdm hdn h
  have hdig : Nat.digits 10 m = Nat.digits 10 n :=
    List.reverse_injective hrev
  calc m = Nat.ofDigits 10 (Nat.digits 10 m) :=
        (Nat.ofDigits_digits 10 m).symm
    _ = Nat.ofDigits 10 (Nat.digits 10 n) := by rw [hdig]
    _ = n := Nat.ofDigits_digits 10 n

/-- Tags built from distinct counter values are distinct. -/
theorem tag_inj (m n : Nat)
    (h : "new_model_" ++ decStr m = "new_model_" ++ decStr n) : m = n := by
  have hd := congrArg String.data h
  rw [String.data_append, String.data_append] at hd
  have hcs : (decStr m).data = (decStr n).data :=
    List.append_cancel_left hd
  exact decChars_inj m n hcs

/-- Embedded from the notebook: the TOP_N constant. -/
def TOP_N : Nat := 4

/-- Embedded from the notebook: `model_selection` keeps the TOP_N
best-ranked members and refills the population with freshly named members
cloned from the best member via `new_pipe`, one `_next_name` call per new
member. The global counter is threaded explicitly; `newPipe` stands for the
notebook's `new_pipe` (a `new_with_params` clone of the best pipeline,
whose internals do not matter for tagging). The source's
final-generation branch refers to a variable that is not in scope there
and is unreachable because the engine always calls with
`generation < ngen`; it is modelled as returning the empty population. -/
def model_selectionT (newPipe : P → P) (dflt : String × P) (num : Nat)
    (models : List (String × P)) (best_idxes : List Nat)
    (generation ngen : Nat) : Nat × List (String × P) :=
  let top := (best_idxes.take TOP_N).map (fun i => models.getD i dflt)
  if generation < ngen then
    let k := models.length - top.length
    let newMembers := (List.range k).map
      (fun i => ((next_name (num + i)).2, newPipe (top.headD dflt).2))
    (num + k, top ++ newMembers)
  else (num, [])

/-- C9: every `_next_name` call strictly increases the global counter and
returns the tag `new_model_` followed by the new counter value; distinct
calls return distinct tags; hence the members newly created by
`model_selection` within one generation (one sequential `_next_name` call
each) carry pairwise-distinct tags. -/
theorem next_name_distinct_tags {P : Type} (m n num k : Nat)
    (newPipe : P → P) (dflt : String × P) (models : List (String × P))
    (bi : List Nat) (g ng : Nat) :
    (next_name n).1 = n + 1 ∧
    n < (next_name n).1 ∧
    (next_name n).2 = "new_model_" ++ decStr (n + 1) ∧
    (m ≠ n → (next_name m).2 ≠ (next_name n).2) ∧
    ((List.range k).map (fun i => (next_name (num + i)).2)).Nodup ∧
    (g < ng →
      ((model_selectionT newPipe dflt num models bi g ng).2.drop
          ((bi.take TOP_N).length)).map (fun x => x.1) =
        (List.range (models.length - (bi.take TOP_N).length)).map
          (fun i => (next_name (num + i)).2)) := by
  have hinj : Function.Injective
      (fun i : Nat => (next_name (num + i)).2) := by
    intro i j hij
    simp only [next_name] at hij
    have := tag_inj (num + i + 1) (num + j + 1) hij
    omega
  refine ⟨rfl, Nat.lt_succ_self n, rfl, ?_, ?_, ?_⟩
  · intro hmn htag
    simp only [next_name] at htag
    have := tag_inj (m + 1) (n + 1) htag
    exact hmn (by omega)
  · exact (List.nodup_range k).map hinj
  · intro hg
    simp only [model_selectionT, if_pos hg]
    rw [← List.length_map (bi.take TOP_N) (fun i => models.getD i dflt),
      List.drop_left, List.map_map]
    rfl

/-! ### set_nans and toa_rad_or_reflect, embedded from
LANDSAT_Example.ipynb

Array cells are modelled as integers or NaN (the float32 cast of
`set_nans` changes only the dtype and is not itself observable here); a
sample (`ElmStore`) is a list of named bands, each a list of cells. To
make in-place mutation and deep copies expressible, samples live in an
explicit heap (a list of stores addressed by position) and each step maps
a heap and an address to the updated heap and the address of its output. -/

/-- A single array cell: an integer value or NaN. -/
inductive Cell
  | nan : Cell
  | val : Int → Cell
deriving DecidableEq, Repr

/-- A named-band store, the shape of an ElmStore's data_vars. -/
def Store := List (String × List Cell)

instance : DecidableEq Store := by
  unfold Store
  infer_instance

/-- Embedded from the notebook: the per-cell effect of `set_nans` masking,
writing NaN where the value is at most 1 and then where the value equals
2 to the 16th power; a cell that is already NaN satisfies neither numpy
comparison and is left as NaN. -/
def setNanCell : Cell → Cell
  | .nan => .nan
  | .val x => if x ≤ 1 then .nan else if x = 65536 then .nan else .val x

/-- Embedded from the notebook: the value transformation `set_nans`
applies to the deep copy, band by band. -/
def setNanStore (X : Store) : Store :=
  X.map (fun b => (b.1, b.2.map setNanCell))

/-- Embedded from the notebook: `set_nans` makes a deep copy of its input
(`X.copy(deep=True)`), applies the NaN masking to the copy and returns the
copy; on the heap this allocates the masked copy at a fresh address and
leaves every existing address untouched. -/
def set_nansRef (h : List Store) (r : Nat) : List Store × Nat :=
  (h ++ [setNanStore (h.getD r [])], h.length)

/-- Embedded from the notebook: `toa_rad_or_reflect` writes its per-band
radiance or reflectance transform into its argument's arrays in place
(`band_arr.values[:] = ...`); on the heap it overwrites the store at its
argument's address. The numeric transform (multiply by the band's MULT
attribute, add its ADD attribute and, for reflectance, divide by the sine
of the sun elevation) is floating-point arithmetic and is abstracted as an
arbitrary per-band cell function `f`; only the write structure matters
here. -/
def toa_rad_or_reflectRef (f : String → Cell → Cell) (h : List Store)
    (r : Nat) : List Store × Nat :=
  (h.set r ((h.getD r []).map (fun b => (b.1, b.2.map (f b.1)))), r)

/-- Embedded from the notebook: the LANDSAT pipeline applies `set_nans`
first and `toa_rad_or_reflect` second, feeding the first step's output
address into the second step. -/
def preprocessRef (f : String → Cell → Cell) (h : List Store) (r : Nat) :
    List Store × Nat :=
  let p1 := set_nansRef h r
  toa_rad_or_reflectRef f p1.1 p1.2

/-- C10: `set_nans` leaves its input unchanged: the NaN masking is applied
to a deep copy, allocated at a fresh address and returned; and because
`set_nans` is the first pipeline step, the in-place writes of the
following `toa_rad_or_reflect` step hit only that copy, so the caller's
shared sample at address `r` is unchanged after the pipeline's
preprocessing. -/
theorem set_nans_frame (f : String → Cell → Cell) (h : List Store)
    (r : Nat) (hr : r < h.length) :
    (∀ i, i < h.length → (set_nansRef h r).1.getD i [] = h.getD i []) ∧
    (set_nansRef h r).2 ≠ r ∧
    (set_nansRef h r).1.getD (set_nansRef h r).2 [] =
      setNanStore (h.getD r []) ∧
    (preprocessRef f h r).1.getD r [] = h.getD r [] := by
  have hgetOld : ∀ i, i < h.length →
      (h ++ [setNanStore (h.getD r [])]).getD i [] = h.getD i [] := by
    intro i hi
    rw [List.getD_eq_getElem?_getD, List.getD_eq_getElem?_getD,
      List.getElem?_append]
    simp [hi]
  refine ⟨hgetOld, by simp only [set_nansRef]; omega, ?_, ?_⟩
  · simp only [set_nansRef]
    rw [List.getD_eq_getElem?_getD, List.getElem?_append]
    simp
  · simp only [preprocessRef, set_nansRef, toa_rad_or_reflectRef]
    rw [List.getD_eq_getElem?_getD, List.getElem?_set_ne (by omega)]
    rw [← List.getD_eq_getElem?_getD]
    exact hgetOld r hr

/-! ### Single-objective degenerate case of the ParetoRanker -/

/-- Modelled from the spec: in the single-objective degenerate case the
Pareto rank reduces to a plain sort by the single weighted score,
descending; ties stay in index order because the sort is stable. -/
def plainSortDesc (ks : List Int) : List Nat :=
  (sortDescBy (fun x => x.2) ks.enum).map (fun x => x.1)

/-- Descending-key order with ascending indices as tie break: the target
order of both the ranker and the plain sort. -/
def keyIdxRel (f : α → Int) (g : α → Nat) (a b : α) : Prop :=
  f b < f a ∨ (f a = f b ∧ g a ≤ g b)

/-- The same order expressed on bare indices through a key function. -/
def iLE (K : Nat → Int) (i j : Nat) : Prop :=
  K j < K i ∨ (K i = K j ∧ i ≤ j)

/-- Stable insertion keeps the inserted element together with the list. -/
theorem insertDescBy_perm (f : α → Int) (x : α) (l : List α) :
    (insertDescBy f x l).Perm (x :: l) := by
  induction l with
  | nil => exact List.Perm.refl _
  | cons y ys ih =>
    simp only [insertDescBy]
    split
    · exact List.Perm.refl _
    · exact (ih.cons y).trans (List.Perm.swap x y ys)

/-- Stable insertion preserves sortedness when the inserted element's
index exceeds every index already present. -/
theorem insertDescBy_sorted (f : α → Int) (g : α → Nat) (x : α) :
    ∀ l : List α, l.Pairwise (keyIdxRel f g) → (∀ y ∈ l, g y < g x) →
    (insertDescBy f x l).Pairwise (keyIdxRel f g) := by
  intro l
  induction l with
  | nil =>
    intro _ _
    exact List.pairwise_singleton _ _
  | cons y ys ih =>
    intro hs hg
    rw [List.pairwise_cons] at hs
    simp only [insertDescBy]
    split
    · rename_i hfy
      rw [List.pairwise_cons]
      refine ⟨?_, List.pairwise_cons.mpr hs⟩
      intro z hz
      rcases List.mem_cons.mp hz with rfl | hz'
      · exact Or.inl hfy
      · rcases hs.1 z hz' with h1 | h2
        · exact Or.inl (lt_trans h1 hfy)
        · exact Or.inl (h2.1 ▸ hfy)
    · rename_i hfy
      rw [List.pairwise_cons]
      constructor
      · intro z hz
        have hz' := (insertDescBy_perm f x ys).mem_iff.mp hz
        rcases List.mem_cons.mp hz' with rfl | hz2
        · rcases lt_or_eq_of_le (not_lt.mp hfy) with h | h
          · exact Or.inl h
          · exact Or.inr ⟨h.symm, le_of_lt (hg y (List.mem_cons_self y ys))⟩
        · exact hs.1 z hz2
      · exact ih hs.2 (fun z hz => hg z (List.mem_cons_of_mem y hz))

/-- The insertion-sort fold produces a sorted permutation when the input is
processed in ascending index order. -/
theorem sortDescBy_aux (f : α → Int) (g : α → Nat) :
    ∀ l acc : List α, acc.Pairwise (keyIdxRel f g) →
    (∀ y ∈ acc, ∀ x ∈ l, g y < g x) →
    l.Pairwise (fun a b => g a < g b) →
    (l.foldl (fun a x => insertDescBy f x a) acc).Pairwise
      (keyIdxRel f g) ∧
    (l.foldl (fun a x => insertDescBy f x a) acc).Perm (acc ++ l) := by
  intro l
  induction l with
  | nil =>
    intro acc hacc _ _
    exact ⟨hacc, by simp⟩
  | cons x l ih =>
    intro acc hacc hcross hpair
    rw [List.pairwise_cons] at hpair
    simp only [List.foldl_cons]
    have hsorted' := insertDescBy_sorted f g x acc hacc
      (fun y hy => hcross y hy x (List.mem_cons_self x l))
    have hcross' : ∀ y ∈ insertDescBy f x acc, ∀ z ∈ l, g y < g z := by
      intro y hy z hz
      rcases List.mem_cons.mp
          ((insertDescBy_perm f x acc).mem_iff.mp hy) with rfl | hy2
      · exact hpair.1 z hz
      · exact hcross y hy2 z (List.mem_cons_of_mem x hz)
    obtain ⟨hp, hperm⟩ := ih (insertDescBy f x acc) hsorted' hcross' hpair.2
    refine ⟨hp, ?_⟩
    refine hperm.trans ?_
    refine (List.Perm.append_right l (insertDescBy_perm f x acc)).trans ?_
    exact List.perm_middle.symm

/-- Sorting an index-ascending list yields a `keyIdxRel`-sorted
permutation of it. -/
theorem sortDescBy_sorted_perm (f : α → Int) (g : α → Nat) (l : List α)
    (hpair : l.Pairwise (fun a b => g a < g b)) :
    (sortDescBy f l).Pairwise (keyIdxRel f g) ∧
      (sortDescBy f l).Perm l := by
  have h := sortDescBy_aux f g l [] List.Pairwise.nil (by simp) hpair
  simpa [sortDescBy] using h

/-- On single-objective vectors, dominance is strict inequality of the
single weighted score. -/
theorem dominates_singleton (kx ky : Int) :
    dominates [kx] [ky] = true ↔ ky < kx := by
  simp only [dominates]
  constructor
  · intro h
    simp at h
    omega
  · intro h
    simp
    omega

/-- On single-objective items, being undominated means attaining the
maximum weighted score. -/
theorem undominated_iff_max (items : List (Nat × List Int)) (K : Nat → Int)
    (hsing : ∀ x ∈ items, x.2 = [K x.1]) (a : Nat × List Int)
    (ha : a ∈ items) :
    undominated items a = true ↔ ∀ b ∈ items, K b.1 ≤ K a.1 := by
  simp only [undominated, Bool.not_eq_true', List.any_eq_false]
  constructor
  · intro h b hb
    have hd := h b hb
    rw [hsing b hb, hsing a ha] at hd
    by_contra hlt
    push_neg at hlt
    exact hd ((dominates_singleton (K b.1) (K a.1)).mpr hlt)
  · intro h b hb
    rw [hsing b hb, hsing a ha]
    cases hd : dominates [K b.1] [K a.1] with
    | false => simp
    | true =>
      have hkk := (dominates_singleton (K b.1) (K a.1)).mp hd
      have hle := h b hb
      omega

/-- A nonempty finite list has an element of maximal key. -/
theorem exists_max_key (f : α → Int) :
    ∀ l : List α, l ≠ [] → ∃ x ∈ l, ∀ y ∈ l, f y ≤ f x := by
  intro l
  induction l with
  | nil => intro h; exact absurd rfl h
  | cons a l ih =>
    intro _
    by_cases hl : l = []
    · subst hl
      refine ⟨a, List.mem_cons_self a [], ?_⟩
      intro y hy
      rcases List.mem_cons.mp hy with rfl | hy'
      · exact le_refl _
      · exact absurd hy' (List.not_mem_nil y)
    · obtain ⟨x, hx, hmax⟩ := ih hl
      by_cases hfa : f x ≤ f a
      · refine ⟨a, List.mem_cons_self a l, ?_⟩
        intro y hy
        rcases List.mem_cons.mp hy with rfl | hy'
        · exact le_refl _
        · exact le_trans (hmax y hy') hfa
      · refine ⟨x, List.mem_cons_of_mem a hx, ?_⟩
        intro y hy
        rcases List.mem_cons.mp hy with rfl | hy'
        · omega
        · exact hmax y hy'

/-- The nondominated front of a nonempty single-objective item set is
nonempty. -/
theorem front_ne_nil (items : List (Nat × List Int)) (K : Nat → Int)
    (hsing : ∀ x ∈ items, x.2 = [K x.1]) (hne : items ≠ []) :
    items.filter (undominated items) ≠ [] := by
  obtain ⟨x, hx, hmax⟩ :=
    exists_max_key (fun x : Nat × List Int => K x.1) items hne
  intro hnil
  have hxmem : x ∈ items.filter (undominated items) := by
    rw [List.mem_filter]
    exact ⟨hx, (undominated_iff_max items K hsing x hx).mpr hmax⟩
  rw [hnil] at hxmem
  exact absurd hxmem (List.not_mem_nil x)

/-- Peeling dominance fronts from a single-objective, index-ascending item
set yields a `keyIdxRel`-sorted permutation of the items. -/
theorem peelFronts_sorted_perm (K : Nat → Int) :
    ∀ (fuel : Nat) (items : List (Nat × List Int)),
    items.length ≤ fuel →
    items.Pairwise (fun a b => a.1 < b.1) →
    (∀ x ∈ items, x.2 = [K x.1]) →
    ((peelFronts fuel items).flatten.Pairwise
      (keyIdxRel (fun x => sumKey x.2) (fun x => x.1))) ∧
    ((peelFronts fuel items).flatten.Perm items) := by
  intro fuel
  induction fuel with
  | zero =>
    intro items hlen _ _
    have : items = [] := List.eq_nil_of_length_eq_zero (Nat.le_zero.mp hlen)
    subst this
    exact ⟨List.Pairwise.nil, List.Perm.refl _⟩
  | succ fuel ih =>
    intro items hlen hidx hsing
    by_cases hne : items = []
    · subst hne
      exact ⟨List.Pairwise.nil, List.Perm.refl _⟩
    · have hfront := front_ne_nil items K hsing hne
      simp only [peelFronts]
      rw [if_neg (by simpa [List.isEmpty_iff] using hfront)]
      set front := items.filter (undominated items) with hfrontdef
      set rest := items.filter (fun a => !(undominated items a)) with hrestdef
      have hsplit : (front ++ rest).Perm items := List.filter_append_perm _ _
      have hlenfr : front.length + rest.length = items.length := by
        have := hsplit.length_eq
        simpa using this
      have hfrontpos : 0 < front.length := List.length_pos.mpr hfront
      have hrestlen : rest.length ≤ fuel := by omega
      have hrestidx : rest.Pairwise (fun a b => a.1 < b.1) :=
        hidx.filter _
      have hrestsing : ∀ x ∈ rest, x.2 = [K x.1] := fun x hx =>
        hsing x (List.mem_of_mem_filter hx)
      obtain ⟨ihsorted, ihperm⟩ := ih rest hrestlen hrestidx hrestsing
      have hfrontidx : front.Pairwise (fun a b => a.1 < b.1) :=
        hidx.filter _
      obtain ⟨hfsorted, hfperm⟩ :=
        sortDescBy_sorted_perm (fun x => sumKey x.2) (fun x => x.1)
          front hfrontidx
      have hfrontmax : ∀ a ∈ front, ∀ b ∈ items, K b.1 ≤ K a.1 := by
        intro a ha
        have hmf := List.mem_filter.mp ha
        exact (undominated_iff_max items K hsing a hmf.1).mp hmf.2
      have hrestlt : ∀ b ∈ rest, ∀ a ∈ front, K b.1 < K a.1 := by
        intro b hb a ha
        have hmb := List.mem_filter.mp hb
        have hnotund : ¬(undominated items b = true) := by
          simpa using hmb.2
        have hnotall : ¬(∀ c ∈ items, K c.1 ≤ K b.1) := fun hc =>
          hnotund ((undominated_iff_max items K hsing b hmb.1).mpr hc)
        push_neg at hnotall
        obtain ⟨c, hc, hbc⟩ := hnotall
        exact lt_of_lt_of_le hbc (hfrontmax a ha c hc)
      simp only [sortFront, List.flatten_cons]
      constructor
      · rw [List.pairwise_append]
        refine ⟨hfsorted, ihsorted, ?_⟩
        intro a ha b hb
        have hamem : a ∈ front := hfperm.subset ha
        have hbmem : b ∈ rest := ihperm.subset hb
        left
        show sumKey b.2 < sumKey a.2
        rw [hsing a (List.mem_of_mem_filter hamem), hrestsing b hbmem]
        simpa [sumKey] using hrestlt b hbmem a hamem
      · exact (hfperm.append ihperm).trans hsplit

/-- Flattening after mapping inside equals mapping after flattening. -/
theorem flatten_map_map (L : List (List α)) (f : α → β) :
    (L.map (fun l => l.map f)).flatten = L.flatten.map f := by
  induction L with
  | nil => rfl
  | cons a L ih =>
    rw [List.map_cons, List.flatten_cons, List.flatten_cons,
      List.map_append, ih]

/-- Enumeration indices are strictly increasing. -/
theorem enumFrom_pairwise_fst :
    ∀ (l : List α) (n : Nat),
    (List.enumFrom n l).Pairwise (fun a b => a.1 < b.1) := by
  intro l
  induction l with
  | nil => intro n; exact List.Pairwise.nil
  | cons a l ih =>
    intro n
    rw [show List.enumFrom n (a :: l) =
      (n, a) :: List.enumFrom (n + 1) l from rfl]
    rw [List.pairwise_cons]
    refine ⟨?_, ih (n + 1)⟩
    intro y hy
    have h := List.mem_enumFrom hy
    show n < y.1
    omega

/-- An enumeration entry carries the list element at its index. -/
theorem mem_enum_snd (l : List α) (d : α) (x : Nat × α)
    (hx : x ∈ l.enum) : x.1 < l.length ∧ x.2 = l.getD x.1 d := by
  have hx' : x ∈ List.enumFrom 0 l := hx
  have h := List.mem_enumFrom hx'
  obtain ⟨-, hi, hv⟩ := h
  have hilt : x.1 < l.length := by omega
  refine ⟨hilt, ?_⟩
  rw [List.getD_eq_getElem?_getD, List.getElem?_eq_getElem hilt]
  simpa using hv

/-- C6: for a single objective, `ParetoRanker.rank` equals the plain
stable descending sort of the weight-multiplied scores; in particular,
for weight vector [-1] (minimize) and scores [3,1,2] the returned index
ordering is [1,2,0]. -/
theorem rank_single_objective (xs : List Int) (w : Int) :
    rank (xs.map (fun x => [x])) [w] =
      plainSortDesc (xs.map (fun x => w * x)) ∧
    rank [[3], [1], [2]] [-1] = [1, 2, 0] := by
  refine ⟨?_, by decide⟩
  have hws : (xs.map (fun x => [x])).map (wmul [w]) =
      (xs.map (fun x => w * x)).map (fun k => [k]) := by
    simp only [List.map_map]
    rfl
  set ks : List Int := xs.map (fun x => w * x) with hksdef
  set K : Nat → Int := fun i => ks.getD i 0 with hKdef
  set items : List (Nat × List Int) := (ks.map (fun k => [k])).enum
    with hitemsdef
  have hranklhs : rank (xs.map (fun x => [x])) [w] =
      ((peelFronts items.length items).flatten).map (fun x => x.1) := by
    simp only [rank, paretoFronts]
    rw [hws]
    exact flatten_map_map _ _
  have hsingle : ∀ x ∈ items, x.2 = [K x.1] := by
    intro x hx
    obtain ⟨hlt, hv⟩ := mem_enum_snd (ks.map (fun k => [k])) [] x hx
    have hlt' : x.1 < ks.length := by
      simpa using hlt
    rw [hv]
    simp [hKdef, List.getD_eq_getElem?_getD,
      List.getElem?_eq_getElem hlt, List.getElem?_eq_getElem hlt',
      List.getElem_map]
  have hidx : items.Pairwise (fun a b => a.1 < b.1) :=
    enumFrom_pairwise_fst (ks.map (fun k => [k])) 0
  obtain ⟨hsorted, hperm⟩ :=
    peelFronts_sorted_perm K items.length items le_rfl hidx hsingle
  have hsortedIdx :
      (((peelFronts items.length items).flatten).map
        (fun x => x.1)).Pairwise (iLE K) := by
    rw [List.pairwise_map]
    refine hsorted.imp_of_mem ?_
    intro a b ha hb hrel
    have ha' : a ∈ items := hperm.subset ha
    have hb' : b ∈ items := hperm.subset hb
    rcases hrel with h1 | h2
    · left
      have h1' : sumKey b.2 < sumKey a.2 := h1
      rw [hsingle a ha', hsingle b hb'] at h1'
      simpa [sumKey] using h1'
    · right
      have h21 : sumKey a.2 = sumKey b.2 := h2.1
      rw [hsingle a ha', hsingle b hb'] at h21
      exact ⟨by simpa [sumKey] using h21, h2.2⟩
  have hitemsfst : items.map (fun x => x.1) = List.range ks.length := by
    have h := List.enum_map_fst (ks.map (fun k => [k]))
    rw [List.length_map] at h
    exact h
  have hpermIdx :
      (((peelFronts items.length items).flatten).map
        (fun x => x.1)).Perm (List.range ks.length) := by
    have h1 := hperm.map (fun x : Nat × List Int => x.1)
    rw [hitemsfst] at h1
    exact h1
  obtain ⟨hsortedR, hpermR⟩ :=
    sortDescBy_sorted_perm (fun x : Nat × Int => x.2) (fun x => x.1)
      ks.enum (enumFrom_pairwise_fst ks 0)
  have hsingleR : ∀ x ∈ ks.enum, x.2 = K x.1 := by
    intro x hx
    obtain ⟨hlt, hv⟩ := mem_enum_snd ks 0 x hx
    rw [hv, hKdef]
  have hsortedIdxR :
      ((sortDescBy (fun x : Nat × Int => x.2) ks.enum).map
        (fun x => x.1)).Pairwise (iLE K) := by
    rw [List.pairwise_map]
    refine hsortedR.imp_of_mem ?_
    intro a b ha hb hrel
    have ha' : a ∈ ks.enum := hpermR.subset ha
    have hb' : b ∈ ks.enum := hpermR.subset hb
    rcases hrel with h1 | h2
    · left
      have h1' : b.2 < a.2 := h1
      rw [hsingleR a ha', hsingleR b hb'] at h1'
      exact h1'
    · right
      have h21 : a.2 = b.2 := h2.1
      rw [hsingleR a ha', hsingleR b hb'] at h21
      exact ⟨h21, h2.2⟩
  have henumfst : ks.enum.map (fun x => x.1) = List.range ks.length :=
    List.enum_map_fst ks
  have hpermIdxR :
      ((sortDescBy (fun x : Nat × Int => x.2) ks.enum).map
        (fun x => x.1)).Perm (List.range ks.length) := by
    have h1 := hpermR.map (fun x : Nat × Int => x.1)
    rw [henumfst] at h1
    exact h1
  haveI : IsAntisymm Nat (iLE K) := by
    refine ⟨?_⟩
    intro a b hab hba
    rcases hab with h1 | h2 <;> rcases hba with h3 | h4 <;> omega
  rw [hranklhs]
  show _ = (sortDescBy (fun x : Nat × Int => x.2) ks.enum).map
    (fun x => x.1)
  exact List.eq_of_perm_of_sorted (hpermIdx.trans hpermIdxR.symm)
    hsortedIdx hsortedIdxR

/-- C5: for scores A=[1,5], B=[2,4], C=[1,4] and weights [+1,+1],
ParetoRanker places A and B together in the first dominance front (neither
dominates the other) and places C, dominated by A, last. -/
theorem pareto_dominance_example :
    paretoFronts [[1, 5], [2, 4], [1, 4]] [1, 1] = [[0, 1], [2]] ∧
    rank [[1, 5], [2, 4], [1, 4]] [1, 1] = [0, 1, 2] ∧
    dominates (wmul [1, 1] [1, 5]) (wmul [1, 1] [1, 4]) = true ∧
    dominates (wmul [1, 1] [1, 5]) (wmul [1, 1] [2, 4]) = false ∧
    dominates (wmul [1, 1] [2, 4]) (wmul [1, 1] [1, 5]) = false := by
  decide

/-! ### Concrete witness data -/

/-- A small concrete ensemble run: one argument tuple reused over two
generations, all fit jobs succeed, selection is the identity. -/
def sampleCfg : EnsembleConfig Nat Nat Nat Unit where
  sampler := fun a => .ok a
  args_list := [10]
  ngen := 2
  fitJob := fun m s => some (m + s)
  scorer := fun m _ => [(m : Int)]
  weights := [1]
  model_selection := fun popn _ _ _ _ => popn
  model_selection_kwargs := ()

/-- The trace `fit_ensemble sampleCfg [1, 2]` produces. -/
def sampleTrace : List (GenRecord Nat Nat Nat Unit) :=
  [{ gen := 0, samplerArgs := 10, sample := 10, popBefore := [1, 2],
     fitted := [11, 12], failures := [], scores := [[11], [12]],
     bestIdxes := [1, 0], mselGen := 0, mselNgen := 2, mselKwargs := (),
     popAfter := [11, 12] },
   { gen := 1, samplerArgs := 10, sample := 10, popBefore := [11, 12],
     fitted := [21, 22], failures := [], scores := [[21], [22]],
     bestIdxes := [1, 0], mselGen := 1, mselNgen := 2, mselKwargs := (),
     popAfter := [21, 22] }]

/-- A run in which the fit job of member 2 raises. -/
def failCfg : EnsembleConfig Nat Nat Nat Unit where
  sampler := fun a => .ok a
  args_list := [5]
  ngen := 1
  fitJob := fun m s => if m = 2 then none else some (m + s)
  scorer := fun m _ => [(m : Int)]
  weights := [1]
  model_selection := fun popn _ _ _ _ => popn
  model_selection_kwargs := ()

/-- The record of `failCfg`'s only generation on population [1, 2]:
member 2 is excluded and recorded as failure index 1. -/
def failRec : GenRecord Nat Nat Nat Unit :=
  { gen := 0, samplerArgs := 5, sample := 5, popBefore := [1, 2],
    fitted := [6], failures := [1], scores := [[6]], bestIdxes := [0],
    mselGen := 0, mselNgen := 1, mselKwargs := (), popAfter := [6] }

/-- Witness for C1 at the concrete two-generation run. -/
theorem fit_ensemble_sampler_invocations_witness :
    sampleTrace.length = sampleCfg.ngen ∧
    (sampleTrace.get ⟨1, by decide⟩).gen = 1 ∧
    sampleCfg.args_list.get? (1 % sampleCfg.args_list.length) =
      some ((sampleTrace.get ⟨1, by decide⟩).samplerArgs) := by
  have h := fit_ensemble_sampler_invocations sampleCfg [1, 2] sampleTrace
    [21, 22] rfl
  exact ⟨h.1, (h.2 1 (by decide)).1, (h.2 1 (by decide)).2.1⟩

/-- Witness for C2 at the concrete one-failure run. -/
theorem member_fit_failure_isolation_witness :
    (runGen failCfg [1, 2] 0).isOk = true ∧
    (runGens failCfg [1, 2] 0 1).isOk =
      (runGens failCfg [6] 1 0).isOk ∧
    runGen failCfg [2, 2] 0 = .error "all population members failed" := by
  have h := member_fit_failure_isolation failCfg [1, 2] 0 5 5
    rfl rfl
  have h2 := member_fit_failure_isolation failCfg [2, 2] 0 5 5
    rfl rfl
  refine ⟨(h.1 (by decide) (by decide)).1, ?_, ?_⟩
  · have := h.2.1 failRec 0 rfl
    simpa [failRec] using this
  · exact h2.2.2 (by decide)

/-- Witness for C4 at the concrete two-generation run. -/
theorem fit_ensemble_model_selection_contract_witness :
    (sampleTrace.get ⟨0, by decide⟩).mselGen = 0 ∧
    (sampleTrace.get ⟨0, by decide⟩).mselNgen = sampleCfg.ngen ∧
    (sampleTrace.get ⟨1, by decide⟩).popBefore =
      (sampleTrace.get ⟨0, by decide⟩).popAfter := by
  have h := fit_ensemble_model_selection_contract sampleCfg [1, 2]
    sampleTrace [21, 22] rfl
  exact ⟨(h.2.1 0 (by decide)).1, (h.2.1 0 (by decide)).2.1,
    h.2.2.1 0 (by decide)⟩

/-- Witness for C8 at the concrete two-generation run. -/
theorem fit_ensemble_population_stability_witness :
    (sampleTrace.get ⟨0, by decide⟩).popBefore = [1, 2] ∧
    ((sampleTrace.get ⟨1, by decide⟩).popBefore).length =
      ((sampleTrace.get ⟨0, by decide⟩).popAfter).length := by
  have h := fit_ensemble_population_stability sampleCfg [1, 2] sampleTrace
    [21, 22] rfl
  exact ⟨h.2.1 (by decide), (h.2.2 0 (by decide)).2⟩

/-- An always-succeeding concrete predictor. -/
def okPredict : Nat → Nat → Option Nat := fun m s => some (m * s)

/-- Witness for C7 over three members and one sample with no failures. -/
theorem predict_many_partial_failure_witness :
    (predict_many okPredict [1, 2, 3] [7]).1.length = 3 ∧
    (predict_many okPredict [1, 2, 3] [7]).2.length = 0 := by
  have h := predict_many_partial_failure okPredict [1, 2, 3] [7]
  have h3 := h.2.2 7 rfl (by decide)
  have hsum := h.2.1
  rw [h3] at hsum
  simp at hsum
  exact ⟨h3, by rw [hsum]; rfl⟩

/-- A concrete pipeline with fitted state present. -/
def samplePipe : Pipeline :=
  { steps := [("pca", [("n_components", 5)]),
              ("kmeans", [("n_clusters", 8)])],
    options := [("scoring", 1)],
    fitted := some [42] }

/-- The clone `new_with_params samplePipe` yields for override
`kmeans__n_clusters = 4`. -/
def sampleClone : Pipeline :=
  { steps := [("pca", [("n_components", 5)]),
              ("kmeans", [("n_clusters", 4)])],
    options := [("scoring", 1)],
    fitted := none }

/-- Witness for C3 at the concrete override. -/
theorem new_with_params_clone_witness :
    sampleClone.fitted = none ∧
    (get_params sampleClone).lookup "pca__n_components" =
      (get_params samplePipe).lookup "pca__n_components" := by
  have h := new_with_params_clone samplePipe sampleClone
    [("kmeans__n_clusters", 4)] rfl
  exact ⟨h.1, h.2.2.2.2 "pca__n_components" (by decide)⟩

/-- A six-member tagged population for exercising model selection. -/
def wModels : List (String × Unit) :=
  [("a", ()), ("b", ()), ("c", ()), ("d", ()), ("e", ()), ("f", ())]

/-- Witness for C9 at concrete counters and a six-member population. -/
theorem next_name_distinct_tags_witness :
    (next_name 2).1 = 3 ∧
    (next_name 1).2 ≠ (next_name 2).2 ∧
    ((model_selectionT (fun p : Unit => p) ("t", ()) 0 wModels
        [0, 1, 2, 3, 4, 5] 0 2).2.drop
        (([0, 1, 2, 3, 4, 5].take TOP_N).length)).map (fun x => x.1) =
      (List.range (wModels.length -
        ([0, 1, 2, 3, 4, 5].take TOP_N).length)).map
        (fun i => (next_name (0 + i)).2) := by
  have h := next_name_distinct_tags (P := Unit) 1 2 0 2 (fun p => p)
    ("t", ()) wModels [0, 1, 2, 3, 4, 5] 0 2
  exact ⟨h.1, h.2.2.2.1 (by decide), h.2.2.2.2.2 (by decide)⟩

/-- A concrete LANDSAT-like store and one-store heap. -/
def wStore : Store :=
  [("band_1", [Cell.val 0, Cell.val 5, Cell.val 65536])]

/-- The heap holding only `wStore`. -/
def wHeap : List Store := [wStore]

/-- Witness for C10 at the concrete one-store heap. -/
theorem set_nans_frame_witness :
    (set_nansRef wHeap 0).1.getD 0 [] = wHeap.getD 0 [] ∧
    (preprocessRef (fun _ c => c) wHeap 0).1.getD 0 [] =
      wHeap.getD 0 [] := by
  have h := set_nans_frame (fun _ c => c) wHeap 0 (by decide)
  exact ⟨h.1 0 (by decide), h.2.2.2⟩

end Elm
